import Mathlib

/-!
Verification of the incache library (an in-process key/value cache with
per-item TTL expiration, optional metrics and insertion/eviction events)
against its natural-language specification.

The Go source is shallowly embedded: Go maps become association lists
(iteration order of Go maps is unspecified, so any order is a faithful
choice), time.Time becomes an integer count of nanoseconds since the zero
instant (IsZero corresponds to = 0, After corresponds to >), time.Duration
becomes an integer, and the Go nil interface value becomes Option.none.
Event dispatch is recorded in a log, one entry per dispatched callback, in
dispatch order; the payload of an event is a Go interface value, which can
hold either a raw user value or an Item record.  Metrics are guarded by the
enableMetrics flag, mirroring the choice between the real and the no-op
metrics sink made at construction time.
-/

namespace Incache

/-- Go time.Duration, in nanoseconds. -/
abbrev Duration := Int

/-- Go time.Time, as nanoseconds relative to the zero instant; the Go zero
value corresponds to 0 and IsZero to equality with 0. -/
abbrev Time := Int

/-- The Item struct of item.go: a cached value with its requested TTL and the
absolute expiration timestamp (zero when the item never expires). -/
structure Item (α : Type) where
  Value : Option α
  TTL : Duration
  ExpiresAt : Time
deriving Repr, DecidableEq

/-- The zero value of the Item struct, produced by reading a missing key from
a Go map of Items. -/
def zeroItem {α : Type} : Item α := { Value := none, TTL := 0, ExpiresAt := 0 }

/-- newItem of item.go: stores value and ttl; only a strictly positive ttl
sets the absolute expiration time to now + ttl. -/
def newItem {α : Type} (value : Option α) (ttl : Duration) (now : Time) : Item α :=
  if 0 < ttl then { Value := value, TTL := ttl, ExpiresAt := now + ttl }
  else { Value := value, TTL := ttl, ExpiresAt := 0 }

/-- Item.CanExpire of item.go: the item can expire iff ExpiresAt is not the
zero instant. -/
def Item.CanExpire {α : Type} (i : Item α) : Bool := !(i.ExpiresAt == 0)

/-- Item.Expired of item.go: false when the item cannot expire, otherwise
whether the reading time is strictly after ExpiresAt. -/
def Item.Expired {α : Type} (i : Item α) (now : Time) : Bool :=
  if !i.CanExpire then false else decide (i.ExpiresAt < now)

/-- A Go map with string keys, embedded as an association list. -/
abbrev GoMap (β : Type) := List (String × β)

/-- Go map read m[k]: the value bound to the key, if present. -/
def mapLookup {β : Type} (m : GoMap β) (k : String) : Option β :=
  match m with
  | [] => none
  | kv :: rest => if kv.1 = k then some kv.2 else mapLookup rest k

/-- Go map delete(m, k): removes the binding of the key, if present. -/
def mapErase {β : Type} (m : GoMap β) (k : String) : GoMap β :=
  match m with
  | [] => []
  | kv :: rest => if kv.1 = k then mapErase rest k else kv :: mapErase rest k

/-- Go map write m[k] = v: binds the key to the value, replacing any previous
binding. -/
def mapInsert {β : Type} (m : GoMap β) (k : String) (v : β) : GoMap β :=
  (k, v) :: mapErase m k

/-- The keys of a Go map, in iteration order. -/
def mapKeys {β : Type} (m : GoMap β) : List String := m.map Prod.fst

/-- A Go interface value as it appears in an event payload: either a raw
user value (possibly nil) or an Item record. -/
inductive GoVal (α : Type) where
  | value : Option α → GoVal α
  | item : Item α → GoVal α
deriving Repr, DecidableEq

/-- A dispatched event: insertion or eviction, with key and payload. -/
inductive Event (α : Type) where
  | insertion : String → GoVal α → Event α
  | eviction : String → GoVal α → Event α
deriving Repr, DecidableEq

/-- The four counters of metrics.go. -/
structure Metrics where
  insertions : Nat
  hits : Nat
  misses : Nat
  evictions : Nat
deriving Repr, DecidableEq

/-- The cache configuration fields the store consults: the default TTL and
whether the real metrics sink was selected at construction.  The cleanup
interval only controls the background cleaner, which is modelled by explicit
deleteExpired steps. -/
structure Config where
  ttl : Duration
  enableMetrics : Bool
deriving Repr, DecidableEq

/-- The Cache struct of cache.go: the item map, the parallel expirations
index, the configuration, the metrics counters, and the log of dispatched
events. -/
structure Cache (α : Type) where
  items : GoMap (Item α)
  expirationsQueue : GoMap Time
  config : Config
  metrics : Metrics
  events : List (Event α)
deriving Repr, DecidableEq

/-- New of cache.go: a cache with empty maps and zeroed counters. -/
def Cache.new {α : Type} (config : Config) : Cache α :=
  { items := [], expirationsQueue := [], config := config,
    metrics := { insertions := 0, hits := 0, misses := 0, evictions := 0 },
    events := [] }

/-- The store's insertions increment: a real increment when metrics were
enabled at construction, otherwise the no-op sink. -/
def Cache.incrInsertions {α : Type} (c : Cache α) : Cache α :=
  if c.config.enableMetrics then
    { c with metrics := { c.metrics with insertions := c.metrics.insertions + 1 } }
  else c

/-- The store's hits increment (real or no-op, as selected at construction). -/
def Cache.incrHits {α : Type} (c : Cache α) : Cache α :=
  if c.config.enableMetrics then
    { c with metrics := { c.metrics with hits := c.metrics.hits + 1 } }
  else c

/-- The store's misses increment (real or no-op, as selected at construction). -/
def Cache.incrMisses {α : Type} (c : Cache α) : Cache α :=
  if c.config.enableMetrics then
    { c with metrics := { c.metrics with misses := c.metrics.misses + 1 } }
  else c

/-- The store's evictions increment (real or no-op, as selected at construction). -/
def Cache.incrEvictions {α : Type} (c : Cache α) : Cache α :=
  if c.config.enableMetrics then
    { c with metrics := { c.metrics with evictions := c.metrics.evictions + 1 } }
  else c

/-- Cache.set of cache.go: dispatches the insertion event with the raw value,
stores a fresh Item, inserts the key into the expirations index when the new
item can expire (and only then; no entry is ever removed here), and
increments the insertions counter. -/
def Cache.set {α : Type} (c : Cache α) (key : String) (value : Option α)
    (ttl : Duration) (now : Time) : Cache α :=
  let item := newItem value ttl now
  Cache.incrInsertions
    { c with
      events := c.events ++ [Event.insertion key (GoVal.value value)],
      items := mapInsert c.items key item,
      expirationsQueue :=
        if item.CanExpire then mapInsert c.expirationsQueue key item.ExpiresAt
        else c.expirationsQueue }

/-- Cache.get of cache.go: reads the item (the zero Item when the key is
missing); a nil value or an expired item is a miss returning nil, otherwise
the value is returned as a hit.  The maps are never mutated. -/
def Cache.get {α : Type} (c : Cache α) (key : String) (now : Time) :
    Option α × Cache α :=
  let item := (mapLookup c.items key).getD zeroItem
  let value := item.Value
  if value.isNone then (none, c.incrMisses)
  else if item.Expired now then (none, c.incrMisses)
  else (value, c.incrHits)

/-- Cache.evict of cache.go: reads c.items[key] into a variable named value
(this is the whole Item record, not its Value field), dispatches the eviction
event with that record as payload, deletes the key from both maps and
increments the evictions counter. -/
def Cache.evict {α : Type} (c : Cache α) (key : String) : Cache α :=
  let value := (mapLookup c.items key).getD zeroItem
  Cache.incrEvictions
    { c with
      events := c.events ++ [Event.eviction key (GoVal.item value)],
      items := mapErase c.items key,
      expirationsQueue := mapErase c.expirationsQueue key }

/-- Cache.Set: set with the configured default TTL. -/
def Cache.Set {α : Type} (c : Cache α) (key : String) (value : Option α)
    (now : Time) : Cache α :=
  c.set key value c.config.ttl now

/-- Cache.SetWithTTL: set with an explicit TTL. -/
def Cache.SetWithTTL {α : Type} (c : Cache α) (key : String) (value : Option α)
    (ttl : Duration) (now : Time) : Cache α :=
  c.set key value ttl now

/-- Cache.SetGet: set with the default TTL, then get the key. -/
def Cache.SetGet {α : Type} (c : Cache α) (key : String) (value : Option α)
    (now : Time) : Option α × Cache α :=
  (c.set key value c.config.ttl now).get key now

/-- Cache.SetGetWithTTL: set with an explicit TTL, then get the key. -/
def Cache.SetGetWithTTL {α : Type} (c : Cache α) (key : String)
    (value : Option α) (ttl : Duration) (now : Time) : Option α × Cache α :=
  (c.set key value ttl now).get key now

/-- Cache.Get: the public read, delegating to get. -/
def Cache.Get {α : Type} (c : Cache α) (key : String) (now : Time) :
    Option α × Cache α :=
  c.get key now

/-- Cache.GetMultiple: one get per requested key, results in input order. -/
def Cache.GetMultiple {α : Type} (c : Cache α) (keys : List String)
    (now : Time) : List (Option α) × Cache α :=
  match keys with
  | [] => ([], c)
  | key :: rest =>
      let r := c.get key now
      let rs := r.2.GetMultiple rest now
      (r.1 :: rs.1, rs.2)

/-- Cache.GetSet: get the old value, then set the new one with the default
TTL. -/
def Cache.GetSet {α : Type} (c : Cache α) (key : String) (value : Option α)
    (now : Time) : Option α × Cache α :=
  let r := c.get key now
  (r.1, r.2.set key value c.config.ttl now)

/-- Cache.GetSetWithTTL: get the old value, then set with an explicit TTL. -/
def Cache.GetSetWithTTL {α : Type} (c : Cache α) (key : String)
    (value : Option α) (ttl : Duration) (now : Time) : Option α × Cache α :=
  let r := c.get key now
  (r.1, r.2.set key value ttl now)

/-- Cache.GetDelete of cache.go: get the value; only when the read returned a
non-nil value is the key evicted. -/
def Cache.GetDelete {α : Type} (c : Cache α) (key : String) (now : Time) :
    Option α × Cache α :=
  let r := c.get key now
  if r.1.isSome then (r.1, r.2.evict key) else (r.1, r.2)

/-- Cache.Delete of cache.go: evicts the key only when it is present in the
item map. -/
def Cache.Delete {α : Type} (c : Cache α) (key : String) : Cache α :=
  if (mapLookup c.items key).isSome then c.evict key else c

/-- Cache.DeleteAll of cache.go: replaces the item map with a fresh empty
map; the expirations index, the metrics and the event log are untouched. -/
def Cache.DeleteAll {α : Type} (c : Cache α) : Cache α :=
  { c with items := [] }

/-- The collection phase of Cache.DeleteExpired: scan the expirations index
and keep every key whose recorded time is not after now (the loop skips the
entry when timeNow.Before(time)). -/
def collectExpired (m : GoMap Time) (now : Time) : List String :=
  match m with
  | [] => []
  | kv :: rest =>
      if now < kv.2 then collectExpired rest now
      else kv.1 :: collectExpired rest now

/-- Cache.DeleteExpired of cache.go: collect all keys of the expirations
index whose recorded time is at or before now, then evict each collected
key. -/
def Cache.DeleteExpired {α : Type} (c : Cache α) (now : Time) : Cache α :=
  (collectExpired c.expirationsQueue now).foldl Cache.evict c

/-- Cache.Keys of cache.go: the keys of the item map. -/
def Cache.Keys {α : Type} (c : Cache α) : List String := mapKeys c.items

/-- Cache.Len of cache.go: the number of stored items. -/
def Cache.Len {α : Type} (c : Cache α) : Nat := c.items.length

/-- Cache.Has of cache.go: whether the key is present in the item map. -/
def Cache.Has {α : Type} (c : Cache α) (key : String) : Bool :=
  (mapLookup c.items key).isSome

/-- One public operation of the cache, together with the wall-clock time at
which it runs (operations that never consult the clock carry no time). -/
inductive Op (α : Type) where
  | opSet : String → Option α → Time → Op α
  | opSetWithTTL : String → Option α → Duration → Time → Op α
  | opSetGet : String → Option α → Time → Op α
  | opSetGetWithTTL : String → Option α → Duration → Time → Op α
  | opGet : String → Time → Op α
  | opGetMultiple : List String → Time → Op α
  | opGetSet : String → Option α → Time → Op α
  | opGetSetWithTTL : String → Option α → Duration → Time → Op α
  | opGetDelete : String → Time → Op α
  | opDelete : String → Op α
  | opDeleteAll : Op α
  | opDeleteExpired : Time → Op α
deriving Repr, DecidableEq

/-- The state transformation of one public operation (returned values are
dropped). -/
def applyOp {α : Type} (c : Cache α) : Op α → Cache α
  | Op.opSet k v now => c.Set k v now
  | Op.opSetWithTTL k v ttl now => c.SetWithTTL k v ttl now
  | Op.opSetGet k v now => (c.SetGet k v now).2
  | Op.opSetGetWithTTL k v ttl now => (c.SetGetWithTTL k v ttl now).2
  | Op.opGet k now => (c.Get k now).2
  | Op.opGetMultiple ks now => (c.GetMultiple ks now).2
  | Op.opGetSet k v now => (c.GetSet k v now).2
  | Op.opGetSetWithTTL k v ttl now => (c.GetSetWithTTL k v ttl now).2
  | Op.opGetDelete k now => (c.GetDelete k now).2
  | Op.opDelete k => c.Delete k
  | Op.opDeleteAll => c.DeleteAll
  | Op.opDeleteExpired now => c.DeleteExpired now

/-- Run a sequence of public operations from a starting state. -/
def run {α : Type} (c : Cache α) (ops : List (Op α)) : Cache α :=
  ops.foldl applyOp c

/-- A cache state is reachable when some sequence of public operations
produces it from a freshly constructed cache. -/
def Reachable {α : Type} (s : Cache α) : Prop :=
  ∃ (config : Config) (ops : List (Op α)), s = run (Cache.new config) ops

section MapLemmas

variable {β : Type}

theorem mapLookup_mapErase_self (m : GoMap β) (k : String) :
    mapLookup (mapErase m k) k = none := by
  induction m with
  | nil => rfl
  | cons kv rest ih =>
      obtain ⟨a, b⟩ := kv
      by_cases h : a = k
      · simpa [mapErase, h] using ih
      · simp [mapErase, mapLookup, h, ih]

theorem mapLookup_mapErase_ne (m : GoMap β) {k k' : String} (h : k' ≠ k) :
    mapLookup (mapErase m k) k' = mapLookup m k' := by
  induction m with
  | nil => rfl
  | cons kv rest ih =>
      obtain ⟨a, b⟩ := kv
      by_cases hk : a = k
      · subst hk
        simp [mapErase, mapLookup, Ne.symm h, ih]
      · by_cases hk' : a = k'
        · subst hk'
          simp [mapErase, mapLookup, h]
        · simp [mapErase, mapLookup, hk, hk', ih]

theorem mapLookup_mapInsert_self (m : GoMap β) (k : String) (v : β) :
    mapLookup (mapInsert m k v) k = some v := by
  simp [mapInsert, mapLookup]

theorem mapLookup_mapInsert_ne (m : GoMap β) {k k' : String} (v : β)
    (h : k' ≠ k) :
    mapLookup (mapInsert m k v) k' = mapLookup m k' := by
  have : k ≠ k' := fun he => h he.symm
  simp [mapInsert, mapLookup, this, mapLookup_mapErase_ne m h]

theorem mem_mapKeys_of_mem_mapErase {m : GoMap β} {k k' : String}
    (h : k' ∈ mapKeys (mapErase m k)) : k' ∈ mapKeys m := by
  induction m with
  | nil => simp [mapErase, mapKeys] at h
  | cons kv rest ih =>
      obtain ⟨a, b⟩ := kv
      by_cases hk : a = k
      · simp only [mapErase, if_pos hk] at h
        exact List.mem_cons_of_mem _ (ih h)
      · simp only [mapErase, if_neg hk, mapKeys, List.map_cons,
          List.mem_cons] at h ⊢
        rcases h with h1 | h1
        · exact Or.inl h1
        · exact Or.inr (ih h1)

theorem not_mem_mapKeys_mapErase_self (m : GoMap β) (k : String) :
    k ∉ mapKeys (mapErase m k) := by
  induction m with
  | nil => simp [mapErase, mapKeys]
  | cons kv rest ih =>
      obtain ⟨a, b⟩ := kv
      by_cases hk : a = k
      · simpa [mapErase, hk] using ih
      · simp only [mapErase, if_neg hk, mapKeys, List.map_cons, List.mem_cons]
        rintro (h1 | h1)
        · exact hk h1.symm
        · exact ih h1

theorem mapKeys_mapErase_nodup {m : GoMap β} (k : String)
    (h : (mapKeys m).Nodup) : (mapKeys (mapErase m k)).Nodup := by
  induction m with
  | nil => simp [mapErase, mapKeys]
  | cons kv rest ih =>
      obtain ⟨a, b⟩ := kv
      simp only [mapKeys, List.map_cons, List.nodup_cons] at h
      by_cases hk : a = k
      · simpa [mapErase, hk] using ih h.2
      · simp only [mapErase, if_neg hk, mapKeys, List.map_cons,
          List.nodup_cons]
        exact ⟨fun hm => h.1 (mem_mapKeys_of_mem_mapErase hm), ih h.2⟩

theorem mapKeys_mapInsert_nodup {m : GoMap β} (k : String) (v : β)
    (h : (mapKeys m).Nodup) : (mapKeys (mapInsert m k v)).Nodup := by
  simp only [mapInsert, mapKeys, List.map_cons, List.nodup_cons]
  exact ⟨not_mem_mapKeys_mapErase_self m k, mapKeys_mapErase_nodup k h⟩

theorem mapLookup_isSome_iff_mem_mapKeys (m : GoMap β) (k : String) :
    (mapLookup m k).isSome = true ↔ k ∈ mapKeys m := by
  induction m with
  | nil => simp [mapLookup, mapKeys]
  | cons kv rest ih =>
      obtain ⟨a, b⟩ := kv
      by_cases hk : a = k
      · simp [mapLookup, mapKeys, hk]
      · have hne : k ≠ a := fun he => hk he.symm
        simp [mapLookup, mapKeys, hk, hne, ih]

theorem mem_of_mapLookup_eq_some {m : GoMap β} {k : String} {t : β}
    (h : mapLookup m k = some t) : (k, t) ∈ m := by
  induction m with
  | nil => simp [mapLookup] at h
  | cons kv rest ih =>
      obtain ⟨a, b⟩ := kv
      by_cases hk : a = k
      · subst hk
        have hbt : b = t := by simpa [mapLookup] using h
        subst hbt
        exact List.mem_cons_self _ _
      · simp only [mapLookup, if_neg hk] at h
        exact List.mem_cons_of_mem _ (ih h)

theorem mapLookup_eq_some_of_mem {m : GoMap β} (hnd : (mapKeys m).Nodup)
    {k : String} {t : β} (h : (k, t) ∈ m) : mapLookup m k = some t := by
  induction m with
  | nil => simp at h
  | cons kv rest ih =>
      obtain ⟨a, b⟩ := kv
      simp only [mapKeys, List.map_cons, List.nodup_cons] at hnd
      rcases List.mem_cons.mp h with h1 | h1
      · obtain ⟨rfl, rfl⟩ := Prod.mk.injEq .. |>.mp h1.symm
        simp [mapLookup]
      · by_cases hk : a = k
        · subst hk
          exact absurd (List.mem_map_of_mem Prod.fst h1) hnd.1
        · simp only [mapLookup, if_neg hk]
          exact ih hnd.2 h1

theorem mem_collectExpired (m : GoMap Time) (now : Time) (k : String) :
    k ∈ collectExpired m now ↔ ∃ t, (k, t) ∈ m ∧ t ≤ now := by
  induction m with
  | nil => simp [collectExpired]
  | cons kv rest ih =>
      obtain ⟨a, b⟩ := kv
      by_cases h : now < b
      · simp only [collectExpired, if_pos h, ih, List.mem_cons,
          Prod.mk.injEq]
        constructor
        · rintro ⟨t, ht, hle⟩; exact ⟨t, Or.inr ht, hle⟩
        · rintro ⟨t, ⟨rfl, rfl⟩ | hm, hle⟩
          · exact absurd hle (not_le.mpr h)
          · exact ⟨t, hm, hle⟩
      · simp only [collectExpired, if_neg h, List.mem_cons, ih,
          Prod.mk.injEq]
        constructor
        · rintro (rfl | ⟨t, ht, hle⟩)
          · exact ⟨b, Or.inl ⟨rfl, rfl⟩, not_lt.mp h⟩
          · exact ⟨t, Or.inr ht, hle⟩
        · rintro ⟨t, ⟨rfl, rfl⟩ | hm, hle⟩
          · exact Or.inl rfl
          · exact Or.inr ⟨t, hm, hle⟩

end MapLemmas

section FrameLemmas

variable {α : Type}

@[simp] theorem incrInsertions_items (c : Cache α) :
    (c.incrInsertions).items = c.items := by
  unfold Cache.incrInsertions; split <;> rfl

@[simp] theorem incrInsertions_expQ (c : Cache α) :
    (c.incrInsertions).expirationsQueue = c.expirationsQueue := by
  unfold Cache.incrInsertions; split <;> rfl

@[simp] theorem incrInsertions_events (c : Cache α) :
    (c.incrInsertions).events = c.events := by
  unfold Cache.incrInsertions; split <;> rfl

@[simp] theorem incrInsertions_config (c : Cache α) :
    (c.incrInsertions).config = c.config := by
  unfold Cache.incrInsertions; split <;> rfl

@[simp] theorem incrHits_items (c : Cache α) :
    (c.incrHits).items = c.items := by
  unfold Cache.incrHits; split <;> rfl

@[simp] theorem incrHits_expQ (c : Cache α) :
    (c.incrHits).expirationsQueue = c.expirationsQueue := by
  unfold Cache.incrHits; split <;> rfl

@[simp] theorem incrHits_events (c : Cache α) :
    (c.incrHits).events = c.events := by
  unfold Cache.incrHits; split <;> rfl

@[simp] theorem incrHits_config (c : Cache α) :
    (c.incrHits).config = c.config := by
  unfold Cache.incrHits; split <;> rfl

@[simp] theorem incrMisses_items (c : Cache α) :
    (c.incrMisses).items = c.items := by
  unfold Cache.incrMisses; split <;> rfl

@[simp] theorem incrMisses_expQ (c : Cache α) :
    (c.incrMisses).expirationsQueue = c.expirationsQueue := by
  unfold Cache.incrMisses; split <;> rfl

@[simp] theorem incrMisses_events (c : Cache α) :
    (c.incrMisses).events = c.events := by
  unfold Cache.incrMisses; split <;> rfl

@[simp] theorem incrMisses_config (c : Cache α) :
    (c.incrMisses).config = c.config := by
  unfold Cache.incrMisses; split <;> rfl

@[simp] theorem incrEvictions_items (c : Cache α) :
    (c.incrEvictions).items = c.items := by
  unfold Cache.incrEvictions; split <;> rfl

@[simp] theorem incrEvictions_expQ (c : Cache α) :
    (c.incrEvictions).expirationsQueue = c.expirationsQueue := by
  unfold Cache.incrEvictions; split <;> rfl

@[simp] theorem incrEvictions_events (c : Cache α) :
    (c.incrEvictions).events = c.events := by
  unfold Cache.incrEvictions; split <;> rfl

@[simp] theorem incrEvictions_config (c : Cache α) :
    (c.incrEvictions).config = c.config := by
  unfold Cache.incrEvictions; split <;> rfl

@[simp] theorem set_items (c : Cache α) (k : String) (v : Option α)
    (ttl : Duration) (now : Time) :
    (c.set k v ttl now).items = mapInsert c.items k (newItem v ttl now) := by
  unfold Cache.set; simp

@[simp] theorem set_expQ (c : Cache α) (k : String) (v : Option α)
    (ttl : Duration) (now : Time) :
    (c.set k v ttl now).expirationsQueue =
      if (newItem v ttl now).CanExpire then
        mapInsert c.expirationsQueue k (newItem v ttl now).ExpiresAt
      else c.expirationsQueue := by
  unfold Cache.set; simp

@[simp] theorem set_config (c : Cache α) (k : String) (v : Option α)
    (ttl : Duration) (now : Time) :
    (c.set k v ttl now).config = c.config := by
  unfold Cache.set; simp

@[simp] theorem set_events (c : Cache α) (k : String) (v : Option α)
    (ttl : Duration) (now : Time) :
    (c.set k v ttl now).events =
      c.events ++ [Event.insertion k (GoVal.value v)] := by
  unfold Cache.set; simp

@[simp] theorem get_items (c : Cache α) (k : String) (now : Time) :
    ((c.get k now).2).items = c.items := by
  simp only [Cache.get]; split_ifs <;> simp

@[simp] theorem get_expQ (c : Cache α) (k : String) (now : Time) :
    ((c.get k now).2).expirationsQueue = c.expirationsQueue := by
  simp only [Cache.get]; split_ifs <;> simp

@[simp] theorem get_events (c : Cache α) (k : String) (now : Time) :
    ((c.get k now).2).events = c.events := by
  simp only [Cache.get]; split_ifs <;> simp

@[simp] theorem get_config (c : Cache α) (k : String) (now : Time) :
    ((c.get k now).2).config = c.config := by
  simp only [Cache.get]; split_ifs <;> simp

@[simp] theorem evict_items (c : Cache α) (k : String) :
    (c.evict k).items = mapErase c.items k := by
  unfold Cache.evict; simp

@[simp] theorem evict_expQ (c : Cache α) (k : String) :
    (c.evict k).expirationsQueue = mapErase c.expirationsQueue k := by
  unfold Cache.evict; simp

@[simp] theorem evict_config (c : Cache α) (k : String) :
    (c.evict k).config = c.config := by
  unfold Cache.evict; simp

@[simp] theorem evict_events (c : Cache α) (k : String) :
    (c.evict k).events = c.events ++
      [Event.eviction k (GoVal.item ((mapLookup c.items k).getD zeroItem))] := by
  unfold Cache.evict; simp

theorem foldl_evict_items_lookup (L : List String) (c : Cache α) (k : String) :
    mapLookup ((L.foldl Cache.evict c).items) k =
      if k ∈ L then none else mapLookup c.items k := by
  induction L generalizing c with
  | nil => simp
  | cons a L ih =>
      simp only [List.foldl_cons, ih, evict_items, List.mem_cons]
      by_cases hk : k = a
      · subst hk
        simp [mapLookup_mapErase_self]
      · by_cases hL : k ∈ L
        · simp [hL, hk]
        · simp [hL, hk, mapLookup_mapErase_ne _ hk]

theorem foldl_evict_expQ_lookup (L : List String) (c : Cache α) (k : String) :
    mapLookup ((L.foldl Cache.evict c).expirationsQueue) k =
      if k ∈ L then none else mapLookup c.expirationsQueue k := by
  induction L generalizing c with
  | nil => simp
  | cons a L ih =>
      simp only [List.foldl_cons, ih, evict_expQ, List.mem_cons]
      by_cases hk : k = a
      · subst hk
        simp [mapLookup_mapErase_self]
      · by_cases hL : k ∈ L
        · simp [hL, hk]
        · simp [hL, hk, mapLookup_mapErase_ne _ hk]

theorem foldl_evict_config (L : List String) (c : Cache α) :
    (L.foldl Cache.evict c).config = c.config := by
  induction L generalizing c with
  | nil => rfl
  | cons a L ih => simp [List.foldl_cons, ih]

end FrameLemmas

section MetricsLemmas

variable {α : Type}

theorem incrInsertions_metrics_enabled (c : Cache α)
    (h : c.config.enableMetrics = true) :
    (c.incrInsertions).metrics =
      { c.metrics with insertions := c.metrics.insertions + 1 } := by
  simp [Cache.incrInsertions, h]

theorem incrHits_metrics_enabled (c : Cache α)
    (h : c.config.enableMetrics = true) :
    (c.incrHits).metrics = { c.metrics with hits := c.metrics.hits + 1 } := by
  simp [Cache.incrHits, h]

theorem incrMisses_metrics_enabled (c : Cache α)
    (h : c.config.enableMetrics = true) :
    (c.incrMisses).metrics =
      { c.metrics with misses := c.metrics.misses + 1 } := by
  simp [Cache.incrMisses, h]

theorem incrEvictions_metrics_enabled (c : Cache α)
    (h : c.config.enableMetrics = true) :
    (c.incrEvictions).metrics =
      { c.metrics with evictions := c.metrics.evictions + 1 } := by
  simp [Cache.incrEvictions, h]

theorem set_metrics_enabled (c : Cache α) (k : String) (v : Option α)
    (ttl : Duration) (now : Time) (h : c.config.enableMetrics = true) :
    (c.set k v ttl now).metrics =
      { c.metrics with insertions := c.metrics.insertions + 1 } := by
  unfold Cache.set
  rw [incrInsertions_metrics_enabled _ (by simpa using h)]

theorem get_metrics_enabled (c : Cache α) (k : String) (now : Time)
    (h : c.config.enableMetrics = true) :
    ((c.get k now).2).metrics.insertions = c.metrics.insertions ∧
    ((c.get k now).2).metrics.evictions = c.metrics.evictions ∧
    ((c.get k now).2).metrics.hits + ((c.get k now).2).metrics.misses =
      c.metrics.hits + c.metrics.misses + 1 := by
  simp only [Cache.get]
  split_ifs <;>
    simp [incrMisses_metrics_enabled _ h, incrHits_metrics_enabled _ h] <;>
    omega

theorem evict_metrics_enabled (c : Cache α) (k : String)
    (h : c.config.enableMetrics = true) :
    (c.evict k).metrics =
      { c.metrics with evictions := c.metrics.evictions + 1 } := by
  unfold Cache.evict
  rw [incrEvictions_metrics_enabled _ (by simpa using h)]

theorem foldl_evict_metrics_enabled (L : List String) (c : Cache α)
    (h : c.config.enableMetrics = true) :
    (L.foldl Cache.evict c).metrics.evictions =
        c.metrics.evictions + L.length ∧
    (L.foldl Cache.evict c).metrics.insertions = c.metrics.insertions ∧
    (L.foldl Cache.evict c).metrics.hits = c.metrics.hits ∧
    (L.foldl Cache.evict c).metrics.misses = c.metrics.misses := by
  induction L generalizing c with
  | nil => simp
  | cons a L ih =>
      have hc : (c.evict a).config.enableMetrics = true := by
        rw [evict_config]; exact h
      obtain ⟨h1, h2, h3, h4⟩ := ih (c.evict a) hc
      simp only [List.foldl_cons, h1, h2, h3, h4,
        evict_metrics_enabled _ _ h, List.length_cons]
      refine ⟨by omega, trivial, trivial, trivial⟩

theorem getMultiple_items (c : Cache α) (ks : List String) (now : Time) :
    ((c.GetMultiple ks now).2).items = c.items := by
  induction ks generalizing c with
  | nil => rfl
  | cons a ks ih => simp [Cache.GetMultiple, ih]

theorem getMultiple_expQ (c : Cache α) (ks : List String) (now : Time) :
    ((c.GetMultiple ks now).2).expirationsQueue = c.expirationsQueue := by
  induction ks generalizing c with
  | nil => rfl
  | cons a ks ih => simp [Cache.GetMultiple, ih]

theorem getMultiple_config (c : Cache α) (ks : List String) (now : Time) :
    ((c.GetMultiple ks now).2).config = c.config := by
  induction ks generalizing c with
  | nil => rfl
  | cons a ks ih => simp [Cache.GetMultiple, ih]

theorem getMultiple_metrics_enabled (c : Cache α) (ks : List String)
    (now : Time) (h : c.config.enableMetrics = true) :
    ((c.GetMultiple ks now).2).metrics.insertions = c.metrics.insertions ∧
    ((c.GetMultiple ks now).2).metrics.evictions = c.metrics.evictions ∧
    ((c.GetMultiple ks now).2).metrics.hits +
        ((c.GetMultiple ks now).2).metrics.misses =
      c.metrics.hits + c.metrics.misses + ks.length := by
  induction ks generalizing c with
  | nil => simp [Cache.GetMultiple]
  | cons a ks ih =>
      have hc : ((c.get a now).2).config.enableMetrics = true := by
        rw [get_config]; exact h
      obtain ⟨g1, g2, g3⟩ := get_metrics_enabled c a now h
      obtain ⟨i1, i2, i3⟩ := ih ((c.get a now).2) hc
      simp only [Cache.GetMultiple, i1, i2, g1, g2, List.length_cons]
      refine ⟨trivial, trivial, ?_⟩
      rw [i3]
      omega

end MetricsLemmas

section Invariants

variable {α : Type}

/-- Both Go maps of the store have no duplicate keys (true of every Go map,
hence of every reachable state of the embedding). -/
def WFkeys (s : Cache α) : Prop :=
  (mapKeys s.items).Nodup ∧ (mapKeys s.expirationsQueue).Nodup

/-- The direction of the spec's index invariant that the code maintains:
whenever the item currently stored for a key can expire, the expirations
index has an entry for that key recording exactly that item's ExpiresAt. -/
def ExpIndexInv (s : Cache α) : Prop :=
  ∀ k i, mapLookup s.items k = some i → i.CanExpire = true →
    mapLookup s.expirationsQueue k = some i.ExpiresAt

theorem set_WFkeys (c : Cache α) (k : String) (v : Option α) (ttl : Duration)
    (now : Time) (h : WFkeys c) : WFkeys (c.set k v ttl now) := by
  obtain ⟨h1, h2⟩ := h
  constructor
  · rw [set_items]; exact mapKeys_mapInsert_nodup k _ h1
  · rw [set_expQ]
    split
    · exact mapKeys_mapInsert_nodup k _ h2
    · exact h2

theorem evict_WFkeys (c : Cache α) (k : String) (h : WFkeys c) :
    WFkeys (c.evict k) := by
  obtain ⟨h1, h2⟩ := h
  exact ⟨by rw [evict_items]; exact mapKeys_mapErase_nodup k h1,
    by rw [evict_expQ]; exact mapKeys_mapErase_nodup k h2⟩

theorem foldl_evict_WFkeys (L : List String) (c : Cache α) (h : WFkeys c) :
    WFkeys (L.foldl Cache.evict c) := by
  induction L generalizing c with
  | nil => exact h
  | cons a L ih => exact ih _ (evict_WFkeys c a h)

theorem applyOp_WFkeys (c : Cache α) (op : Op α) (h : WFkeys c) :
    WFkeys (applyOp c op) := by
  cases op with
  | opSet k v now => exact set_WFkeys c k v _ now h
  | opSetWithTTL k v ttl now => exact set_WFkeys c k v ttl now h
  | opSetGet k v now =>
      refine ⟨?_, ?_⟩ <;>
        simp only [applyOp, Cache.SetGet, get_items, get_expQ] <;>
        [exact (set_WFkeys c k v _ now h).1; exact (set_WFkeys c k v _ now h).2]
  | opSetGetWithTTL k v ttl now =>
      refine ⟨?_, ?_⟩ <;>
        simp only [applyOp, Cache.SetGetWithTTL, get_items, get_expQ] <;>
        [exact (set_WFkeys c k v ttl now h).1;
         exact (set_WFkeys c k v ttl now h).2]
  | opGet k now =>
      exact ⟨by simp only [applyOp, Cache.Get, get_items]; exact h.1,
        by simp only [applyOp, Cache.Get, get_expQ]; exact h.2⟩
  | opGetMultiple ks now =>
      exact ⟨by simp only [applyOp, getMultiple_items]; exact h.1,
        by simp only [applyOp, getMultiple_expQ]; exact h.2⟩
  | opGetSet k v now =>
      have hg : WFkeys ((c.get k now).2) :=
        ⟨by rw [get_items]; exact h.1, by rw [get_expQ]; exact h.2⟩
      exact set_WFkeys _ k v _ now hg
  | opGetSetWithTTL k v ttl now =>
      have hg : WFkeys ((c.get k now).2) :=
        ⟨by rw [get_items]; exact h.1, by rw [get_expQ]; exact h.2⟩
      exact set_WFkeys _ k v ttl now hg
  | opGetDelete k now =>
      have hg : WFkeys ((c.get k now).2) :=
        ⟨by rw [get_items]; exact h.1, by rw [get_expQ]; exact h.2⟩
      simp only [applyOp, Cache.GetDelete]
      split
      · exact evict_WFkeys _ k hg
      · exact hg
  | opDelete k =>
      simp only [applyOp, Cache.Delete]
      split
      · exact evict_WFkeys c k h
      · exact h
  | opDeleteAll =>
      exact ⟨by simp [Cache.DeleteAll, applyOp, mapKeys], h.2⟩
  | opDeleteExpired now => exact foldl_evict_WFkeys _ c h

theorem set_ExpIndexInv (c : Cache α) (key : String) (v : Option α)
    (ttl : Duration) (now : Time) (h : ExpIndexInv c) :
    ExpIndexInv (c.set key v ttl now) := by
  intro k i hl hc
  rw [set_items] at hl
  rw [set_expQ]
  by_cases hk : k = key
  · subst hk
    rw [mapLookup_mapInsert_self] at hl
    obtain rfl : newItem v ttl now = i := Option.some.inj hl
    rw [if_pos hc, mapLookup_mapInsert_self]
  · rw [mapLookup_mapInsert_ne _ _ hk] at hl
    have := h k i hl hc
    split
    · rw [mapLookup_mapInsert_ne _ _ hk]; exact this
    · exact this

theorem evict_ExpIndexInv (c : Cache α) (key : String) (h : ExpIndexInv c) :
    ExpIndexInv (c.evict key) := by
  intro k i hl hc
  rw [evict_items] at hl
  rw [evict_expQ]
  by_cases hk : k = key
  · subst hk; rw [mapLookup_mapErase_self] at hl; cases hl
  · rw [mapLookup_mapErase_ne _ hk] at hl
    rw [mapLookup_mapErase_ne _ hk]
    exact h k i hl hc

theorem foldl_evict_ExpIndexInv (L : List String) (c : Cache α)
    (h : ExpIndexInv c) : ExpIndexInv (L.foldl Cache.evict c) := by
  induction L generalizing c with
  | nil => exact h
  | cons a L ih => exact ih _ (evict_ExpIndexInv c a h)

theorem get_ExpIndexInv (c : Cache α) (k : String) (now : Time)
    (h : ExpIndexInv c) : ExpIndexInv ((c.get k now).2) := by
  intro k' i hl hc
  rw [get_items] at hl
  rw [get_expQ]
  exact h k' i hl hc

theorem applyOp_ExpIndexInv (c : Cache α) (op : Op α) (h : ExpIndexInv c) :
    ExpIndexInv (applyOp c op) := by
  cases op with
  | opSet k v now => exact set_ExpIndexInv c k v _ now h
  | opSetWithTTL k v ttl now => exact set_ExpIndexInv c k v ttl now h
  | opSetGet k v now =>
      exact get_ExpIndexInv _ k now (set_ExpIndexInv c k v _ now h)
  | opSetGetWithTTL k v ttl now =>
      exact get_ExpIndexInv _ k now (set_ExpIndexInv c k v ttl now h)
  | opGet k now => exact get_ExpIndexInv c k now h
  | opGetMultiple ks now =>
      intro k' i hl hc
      simp only [applyOp, getMultiple_items] at hl
      simp only [applyOp, getMultiple_expQ]
      exact h k' i hl hc
  | opGetSet k v now =>
      exact set_ExpIndexInv _ k v _ now (get_ExpIndexInv c k now h)
  | opGetSetWithTTL k v ttl now =>
      exact set_ExpIndexInv _ k v ttl now (get_ExpIndexInv c k now h)
  | opGetDelete k now =>
      simp only [applyOp, Cache.GetDelete]
      split
      · exact evict_ExpIndexInv _ k (get_ExpIndexInv c k now h)
      · exact get_ExpIndexInv c k now h
  | opDelete k =>
      simp only [applyOp, Cache.Delete]
      split
      · exact evict_ExpIndexInv c k h
      · exact h
  | opDeleteAll =>
      intro k' i hl hc
      simp [applyOp, Cache.DeleteAll, mapLookup] at hl
  | opDeleteExpired now => exact foldl_evict_ExpIndexInv _ c h

theorem run_preserves {P : Cache α → Prop}
    (hP : ∀ s op, P s → P (applyOp s op)) :
    ∀ (ops : List (Op α)) (s : Cache α), P s → P (run s ops) := by
  intro ops
  induction ops with
  | nil => intro s h; exact h
  | cons op ops ih =>
      intro s h
      exact ih (applyOp s op) (hP s op h)

theorem reachable_WFkeys {s : Cache α} (h : Reachable s) : WFkeys s := by
  obtain ⟨config, ops, rfl⟩ := h
  exact run_preserves applyOp_WFkeys ops (Cache.new config)
    ⟨List.nodup_nil, List.nodup_nil⟩

theorem reachable_ExpIndexInv {s : Cache α} (h : Reachable s) :
    ExpIndexInv s := by
  obtain ⟨config, ops, rfl⟩ := h
  exact run_preserves applyOp_ExpIndexInv ops (Cache.new config)
    (fun k i hl _ => by simp [Cache.new, mapLookup] at hl)

end Invariants

section OpCharacterization

variable {α : Type}

theorem getDelete_fst (s : Cache α) (k : String) (now : Time) :
    (s.GetDelete k now).1 = (s.get k now).1 := by
  simp only [Cache.GetDelete]
  split <;> rfl

/-- The pure result of a read, as the code computes it: the stored value
when the key is present with a non-nil, non-expired value, absent
otherwise. -/
def liveValue {γ : Type} (s : Cache γ) (k : String) (now : Time) : Option γ :=
  match mapLookup s.items k with
  | none => none
  | some i =>
      if i.Value.isNone then none
      else if i.Expired now then none else i.Value

theorem get_fst_eq (s : Cache α) (k : String) (now : Time) :
    (s.get k now).1 = liveValue s k now := by
  rw [liveValue]
  simp only [Cache.get]
  cases hm : mapLookup s.items k with
  | none => simp [zeroItem]
  | some i =>
      by_cases hv : i.Value.isNone
      · simp [hv]
      · by_cases he : i.Expired now
        · simp [hv, he]
        · simp [hv, he]

end OpCharacterization

/-- C7 (confirmed): for every TTL t at most 0, an Item created with (v, t)
has ExpiresAt unset, CanExpire false and Expired false at every later time;
for t strictly positive the item is created with ExpiresAt equal to the
creation time plus t, and Expired now holds exactly when now is strictly
after ExpiresAt.  The hypothesis 0 <= created records that the creation
time returned by the wall clock is never before the zero instant. -/
theorem C7_item_ttl (v : Option Nat) (t : Duration) (created now : Time)
    (hc : 0 ≤ created) :
    (t ≤ 0 → (newItem v t created).ExpiresAt = 0 ∧
      (newItem v t created).CanExpire = false ∧
      (newItem v t created).Expired now = false) ∧
    (0 < t → (newItem v t created).ExpiresAt = created + t ∧
      (newItem v t created).Expired now = decide (created + t < now)) := by
  constructor
  · intro ht
    have hnt : ¬ 0 < t := not_lt.mpr ht
    simp [newItem, hnt, Item.CanExpire, Item.Expired]
  · intro ht
    have hne : ¬ created + t = 0 := by intro h0; linarith
    simp [newItem, ht, Item.CanExpire, Item.Expired, hne]

/-- Witness for C7 at concrete inputs: a TTL of -1 never expires, a TTL of 3
requested at time 2 expires exactly after time 5. -/
theorem C7_witness :
    (0 : Time) ≤ 2 ∧
    (newItem (some 5) (-1) (2 : Time)).Expired 1000000 = false ∧
    (newItem (some 5) (3 : Duration) (2 : Time)).ExpiresAt = 5 ∧
    (newItem (some 5) (3 : Duration) (2 : Time)).Expired 6 = true ∧
    (newItem (some 5) (3 : Duration) (2 : Time)).Expired 5 = false := by
  refine ⟨by decide, ?_, ?_, ?_, ?_⟩
  · exact ((C7_item_ttl (some 5) (-1) 2 1000000 (by decide)).1 (by decide)).2.2
  · have h := ((C7_item_ttl (some 5) 3 2 6 (by decide)).2 (by decide)).1
    simpa using h
  · have h := ((C7_item_ttl (some 5) 3 2 6 (by decide)).2 (by decide)).2
    simpa using h
  · have h := ((C7_item_ttl (some 5) 3 2 5 (by decide)).2 (by decide)).2
    simpa using h

/-- C8 (confirmed): DeleteAll replaces the item map with an empty map and
changes nothing else: the expirations index, the event log (so no eviction
event is fired) and the metrics (so the evictions counter) are untouched. -/
theorem C8_deleteAll_frame (s : Cache Nat) :
    (Cache.DeleteAll s).items = [] ∧
    (Cache.DeleteAll s).expirationsQueue = s.expirationsQueue ∧
    (Cache.DeleteAll s).events = s.events ∧
    (Cache.DeleteAll s).metrics = s.metrics :=
  ⟨rfl, rfl, rfl, rfl⟩

def c4config : Config := { ttl := 0, enableMetrics := true }

def c4state : Cache Nat :=
  Cache.Delete ((Cache.new c4config).SetWithTTL "a" (some 1) 60 0) "a"

/-- C4 (code bug): eviction does remove the key from both maps and does
increment the evictions counter, and exactly one eviction event is
dispatched; but the payload handed to the eviction callback is the whole
Item record (evict reads c.items[key] without selecting its Value field),
not the stored value 1 that the claim, the spec and the insertion event use. -/
theorem C4_evict_payload_item :
    c4state.events = [Event.insertion "a" (GoVal.value (some 1)),
      Event.eviction "a"
        (GoVal.item { Value := some 1, TTL := 60, ExpiresAt := 60 })] ∧
    decide (c4state.events =
      [Event.insertion "a" (GoVal.value (some 1)),
       Event.eviction "a" (GoVal.value (some 1))]) = false ∧
    mapLookup c4state.items "a" = none ∧
    mapLookup c4state.expirationsQueue "a" = none ∧
    c4state.metrics.evictions = 1 := by
  refine ⟨by decide, by decide, by decide, by decide, by decide⟩

/-- Modelled from the claim C5 text: getDelete returns the value currently
stored for the key (or absent when there is none), evicts the key whenever
the key is present in the cache, and leaves the cache unchanged when the key
is not present. -/
def ClaimedGetDelete (s : Cache Nat) (k : String) (now : Time) : Prop :=
  (s.GetDelete k now).1 = (mapLookup s.items k).bind Item.Value ∧
  ((mapLookup s.items k).isSome = true →
    ((s.GetDelete k now).2).Has k = false) ∧
  ((mapLookup s.items k).isSome = false → (s.GetDelete k now).2 = s)

def c5state : Cache Nat :=
  (Cache.new { ttl := 0, enableMetrics := true }).SetWithTTL "a" (some 1) 1 0

/-- Counterexample to C5 as stated: key a stores value 1 with ExpiresAt 1;
reading it at time 5 finds it expired, so GetDelete returns absent although
a value is stored, and it does not evict the key although the key is
present. -/
theorem C5_counterexample : ¬ ClaimedGetDelete c5state "a" 5 := by
  intro h
  exact absurd h.1 (by decide)

/-- C5 (corrected): getDelete returns the live value of the key: absent when
the key is missing, stores the nil sentinel, or is expired at read time.
Exactly when the read returned a live value the key is evicted (removed from
both maps); otherwise - including the case of a present but expired item -
both maps are left exactly as they were. -/
theorem C5_amended_getDelete (s : Cache Nat) (k : String) (now : Time) :
    (s.GetDelete k now).1 = liveValue s k now ∧
    ((s.get k now).1.isSome = true →
        ((s.GetDelete k now).2).items = mapErase s.items k ∧
        ((s.GetDelete k now).2).expirationsQueue =
          mapErase s.expirationsQueue k) ∧
    ((s.get k now).1.isSome = false →
        ((s.GetDelete k now).2).items = s.items ∧
        ((s.GetDelete k now).2).expirationsQueue = s.expirationsQueue) := by
  refine ⟨by rw [getDelete_fst]; exact get_fst_eq s k now, ?_, ?_⟩
  · intro hs
    simp only [Cache.GetDelete]
    rw [if_pos hs]
    simp
  · intro hs
    simp only [Cache.GetDelete]
    rw [if_neg (by simp [hs])]
    simp

/-- Witness for C5 at concrete inputs: a live key is returned and evicted; a
present but expired key is returned as absent and left in place. -/
theorem C5_witness :
    ((c5state.GetDelete "a" 0).1 = some 1 ∧
      ((c5state.GetDelete "a" 0).2).items = mapErase c5state.items "a") ∧
    ((c5state.GetDelete "a" 5).1 = none ∧
      ((c5state.GetDelete "a" 5).2).items = c5state.items ∧
      c5state.Has "a" = true) := by
  constructor
  · constructor
    · have h := (C5_amended_getDelete c5state "a" 0).1
      rw [h]; decide
    · exact ((C5_amended_getDelete c5state "a" 0).2.1 (by decide)).1
  · refine ⟨?_, ?_, by decide⟩
    · have h := (C5_amended_getDelete c5state "a" 5).1
      rw [h]; decide
    · exact ((C5_amended_getDelete c5state "a" 5).2.2 (by decide)).1

/-- C6 (confirmed): a read never mutates the item map or the expirations
index (whatever it finds), and reading a key whose stored item is expired
returns absent and, when the real metrics sink is selected, increments the
misses counter.  The expired entry itself stays in the maps. -/
theorem C6_get_expired_no_mutation (s : Cache Nat) (k : String) (now : Time) :
    (((s.get k now).2).items = s.items ∧
      ((s.get k now).2).expirationsQueue = s.expirationsQueue) ∧
    (∀ i, mapLookup s.items k = some i → i.Expired now = true →
      (s.get k now).1 = none ∧
      (s.config.enableMetrics = true →
        ((s.get k now).2).metrics.misses = s.metrics.misses + 1)) := by
  refine ⟨⟨get_items s k now, get_expQ s k now⟩, ?_⟩
  intro i hi hexp
  have hfst : (s.get k now).1 = none := by
    rw [get_fst_eq, liveValue, hi]
    by_cases hv : i.Value.isNone
    · simp [hv]
    · simp [hv, hexp]
  refine ⟨hfst, ?_⟩
  intro hm
  simp only [Cache.get, hi]
  by_cases hv : i.Value.isNone
  · simp [hv, incrMisses_metrics_enabled s hm]
  · simp [hv, hexp, incrMisses_metrics_enabled s hm]

def c6state : Cache Nat :=
  (Cache.new { ttl := 0, enableMetrics := true }).SetWithTTL "a" (some 7) 2 0

/-- Witness for C6: key a holds value 7 with ExpiresAt 2; reading at time 9
finds it expired, returns absent, adds a miss, and leaves both maps
unchanged. -/
theorem C6_witness :
    mapLookup c6state.items "a" =
      some { Value := some 7, TTL := 2, ExpiresAt := 2 } ∧
    Item.Expired { Value := some (7:Nat), TTL := 2, ExpiresAt := 2 } 9 = true ∧
    ((c6state.get "a" 9).2).items = c6state.items ∧
    (c6state.get "a" 9).1 = none ∧
    ((c6state.get "a" 9).2).metrics.misses = c6state.metrics.misses + 1 := by
  refine ⟨by decide, by decide, ?_, ?_, ?_⟩
  · exact (C6_get_expired_no_mutation c6state "a" 9).1.1
  · exact ((C6_get_expired_no_mutation c6state "a" 9).2
      { Value := some 7, TTL := 2, ExpiresAt := 2 } (by decide) (by decide)).1
  · exact ((C6_get_expired_no_mutation c6state "a" 9).2
      { Value := some 7, TTL := 2, ExpiresAt := 2 } (by decide) (by decide)).2
      (by decide)

/-- C9 (confirmed): storing the nil sentinel makes every subsequent read of
the key a miss returning absent, although the key stays physically present
(Has is true, the key is listed by Keys and counted by Len); and any state in
which the key is entirely absent produces the same observable read
behaviour, so a missing entry and a stored sentinel are indistinguishable to
get. -/
theorem C9_nil_sentinel (s : Cache Nat) (k : String) (ttl : Duration)
    (now now2 : Time) :
    ((s.set k none ttl now).get k now2).1 = none ∧
    ((s.set k none ttl now).config.enableMetrics = true →
      (((s.set k none ttl now).get k now2).2).metrics.misses =
        (s.set k none ttl now).metrics.misses + 1) ∧
    (s.set k none ttl now).Has k = true ∧
    k ∈ (s.set k none ttl now).Keys ∧
    0 < (s.set k none ttl now).Len ∧
    (∀ s2 : Cache Nat, mapLookup s2.items k = none →
      (s2.get k now2).1 = none ∧
      (s2.config.enableMetrics = true →
        ((s2.get k now2).2).metrics.misses = s2.metrics.misses + 1)) := by
  have hl : mapLookup ((s.set k none ttl now).items) k =
      some (newItem none ttl now) := by
    rw [set_items, mapLookup_mapInsert_self]
  have hvn : (newItem none ttl now).Value = (none : Option Nat) := by
    unfold newItem; split <;> rfl
  refine ⟨?_, ?_, ?_, ?_, ?_, ?_⟩
  · rw [get_fst_eq, liveValue, hl]
    simp [hvn]
  · intro hm
    simp only [Cache.get, hl]
    simp [hvn, incrMisses_metrics_enabled _ hm]
  · rw [Cache.Has, hl]; rfl
  · rw [Cache.Keys, set_items]
    exact List.mem_cons_self _ _
  · rw [Cache.Len, set_items, mapInsert]
    exact Nat.succ_pos _
  · intro s2 h2
    constructor
    · rw [get_fst_eq, liveValue, h2]
    · intro hm
      simp only [Cache.get, h2]
      simp [zeroItem, incrMisses_metrics_enabled _ hm]

def c9base : Cache Nat := Cache.new { ttl := 0, enableMetrics := true }

/-- Witness for C9: after set(a, nil) the key reads as a miss yet Has is
true, and a cache with no entry for a behaves identically to the read. -/
theorem C9_witness :
    ((c9base.set "a" none 60 0).get "a" 1).1 = none ∧
    (((c9base.set "a" none 60 0).get "a" 1).2).metrics.misses =
      (c9base.set "a" none 60 0).metrics.misses + 1 ∧
    (c9base.set "a" none 60 0).Has "a" = true ∧
    "a" ∈ (c9base.set "a" none 60 0).Keys ∧
    (c9base.get "a" 1).1 = none := by
  have h := C9_nil_sentinel c9base "a" 60 0 1
  refine ⟨h.1, h.2.1 (by decide), h.2.2.1, h.2.2.2.1, ?_⟩
  exact (h.2.2.2.2.2 c9base (by decide)).1

/-- Modelled from the claim C1 text: the expirations index has an entry for
a key exactly when the item currently stored for that key can expire, and
every key of the expirations index is a key of the item map. -/
def ClaimedStoreInv (s : Cache Nat) : Prop :=
  (∀ k, (mapLookup s.expirationsQueue k).isSome = true ↔
    ∃ i, mapLookup s.items k = some i ∧ i.CanExpire = true) ∧
  (∀ k, k ∈ mapKeys s.expirationsQueue → k ∈ mapKeys s.items)

def c1state : Cache Nat :=
  run (Cache.new { ttl := 0, enableMetrics := true })
    [Op.opSetWithTTL "a" (some 1) 5 0, Op.opDeleteAll]

/-- Counterexample to C1 as stated: the reachable state after
setWithTTL(a, 1, 5) followed by deleteAll keeps the entry (a, 5) in the
expirations index although the item map is empty, violating both the claimed
iff and the claimed subset invariant. -/
theorem C1_counterexample : ¬ ClaimedStoreInv c1state := by
  intro h
  exact absurd (h.2 "a" (by decide)) (by decide)

/-- C1 (corrected): in every reachable state only one direction of the
claimed invariant holds: whenever the item stored for a key can expire, the
expirations index has an entry for that key recording that item's ExpiresAt.
The converse and the subset property fail because set only ever inserts into
the index (it removes nothing when the new item cannot expire) and deleteAll
empties the item map without touching the index. -/
theorem C1_amended_inv (s : Cache Nat) (h : Reachable s) : ExpIndexInv s :=
  reachable_ExpIndexInv h

def c1wit : Cache Nat :=
  run (Cache.new { ttl := 0, enableMetrics := true })
    [Op.opSetWithTTL "a" (some 1) 5 0]

/-- Witness for C1: in the reachable state holding one expiring item, the
index records exactly that item's expiration time. -/
theorem C1_witness :
    Reachable c1wit ∧
    mapLookup c1wit.items "a" =
      some { Value := some 1, TTL := 5, ExpiresAt := 5 } ∧
    mapLookup c1wit.expirationsQueue "a" =
      some (Item.ExpiresAt { Value := some (1:Nat), TTL := 5, ExpiresAt := 5 }) := by
  have hr : Reachable c1wit :=
    ⟨{ ttl := 0, enableMetrics := true }, [Op.opSetWithTTL "a" (some 1) 5 0],
      rfl⟩
  refine ⟨hr, by decide, ?_⟩
  exact C1_amended_inv c1wit hr "a"
    { Value := some 1, TTL := 5, ExpiresAt := 5 } (by decide) (by decide)

/-- C2 (confirmed): with the sweep time fixed at now, deleteExpired removes
exactly the keys whose recorded expiration is at or before now, from both
the item map and the expirations index; every other key (in particular any
key without an index entry) keeps its bindings in both maps.  The
hypothesis is the Go-map fact that the index has no duplicate keys. -/
theorem C2_deleteExpired_exact (s : Cache Nat) (now : Time) (k : String)
    (hnd : (mapKeys s.expirationsQueue).Nodup) :
    ((∃ t, mapLookup s.expirationsQueue k = some t ∧ t ≤ now) →
        mapLookup (s.DeleteExpired now).items k = none ∧
        mapLookup (s.DeleteExpired now).expirationsQueue k = none) ∧
    ((∀ t, mapLookup s.expirationsQueue k = some t → now < t) →
        mapLookup (s.DeleteExpired now).items k = mapLookup s.items k ∧
        mapLookup (s.DeleteExpired now).expirationsQueue k =
          mapLookup s.expirationsQueue k) := by
  have hmem : k ∈ collectExpired s.expirationsQueue now ↔
      ∃ t, mapLookup s.expirationsQueue k = some t ∧ t ≤ now := by
    rw [mem_collectExpired]
    constructor
    · rintro ⟨t, hm, hle⟩
      exact ⟨t, mapLookup_eq_some_of_mem hnd hm, hle⟩
    · rintro ⟨t, hl, hle⟩
      exact ⟨t, mem_of_mapLookup_eq_some hl, hle⟩
  constructor
  · intro hex
    have hk : k ∈ collectExpired s.expirationsQueue now := hmem.mpr hex
    unfold Cache.DeleteExpired
    rw [foldl_evict_items_lookup, foldl_evict_expQ_lookup]
    simp [hk]
  · intro hall
    have hk : k ∉ collectExpired s.expirationsQueue now := by
      intro hk
      obtain ⟨t, hl, hle⟩ := hmem.mp hk
      exact absurd hle (not_le.mpr (hall t hl))
    unfold Cache.DeleteExpired
    rw [foldl_evict_items_lookup, foldl_evict_expQ_lookup]
    simp [hk]

def c2wit : Cache Nat :=
  run (Cache.new { ttl := 0, enableMetrics := true })
    [Op.opSetWithTTL "a" (some 1) 3 0, Op.opSetWithTTL "b" (some 2) 10 0]

/-- Witness for C2: sweeping at time 5 removes key a (ExpiresAt 3) from both
maps and leaves key b (ExpiresAt 10) bound in both. -/
theorem C2_witness :
    (mapKeys c2wit.expirationsQueue).Nodup ∧
    mapLookup (c2wit.DeleteExpired 5).items "a" = none ∧
    mapLookup (c2wit.DeleteExpired 5).expirationsQueue "a" = none ∧
    mapLookup (c2wit.DeleteExpired 5).items "b" = mapLookup c2wit.items "b" ∧
    mapLookup (c2wit.DeleteExpired 5).expirationsQueue "b" =
      mapLookup c2wit.expirationsQueue "b" := by
  have hnd : (mapKeys c2wit.expirationsQueue).Nodup := by decide
  have ha := (C2_deleteExpired_exact c2wit 5 "a" hnd).1 ⟨3, by decide, by decide⟩
  have hb := (C2_deleteExpired_exact c2wit 5 "b" hnd).2 (fun t ht => by
    rw [show mapLookup c2wit.expirationsQueue "b" = some 10 from by decide]
      at ht
    cases ht
    decide)
  exact ⟨hnd, ha.1, ha.2, hb.1, hb.2⟩

/-- C10 (confirmed): in every reachable state Keys lists every key of the
item map exactly once, its length is Len, and Has answers exactly membership
in Keys. -/
theorem C10_introspection (s : Cache Nat) (h : Reachable s) :
    (s.Keys).Nodup ∧ (s.Keys).length = s.Len ∧
    (∀ k, s.Has k = true ↔ k ∈ s.Keys) := by
  refine ⟨(reachable_WFkeys h).1, ?_, ?_⟩
  · rw [Cache.Keys, Cache.Len, mapKeys, List.length_map]
  · intro k
    exact mapLookup_isSome_iff_mem_mapKeys s.items k

def c10wit : Cache Nat :=
  run (Cache.new { ttl := 0, enableMetrics := false })
    [Op.opSetWithTTL "a" (some 1) 0 0, Op.opSetWithTTL "b" (some 2) 0 0]

/-- Witness for C10 on a reachable two-key state. -/
theorem C10_witness :
    Reachable c10wit ∧ (c10wit.Keys).Nodup ∧
    (c10wit.Keys).length = c10wit.Len ∧
    (c10wit.Has "a" = true ↔ "a" ∈ c10wit.Keys) ∧
    (c10wit.Has "zz" = true ↔ "zz" ∈ c10wit.Keys) := by
  have hr : Reachable c10wit :=
    ⟨{ ttl := 0, enableMetrics := false },
      [Op.opSetWithTTL "a" (some 1) 0 0, Op.opSetWithTTL "b" (some 2) 0 0],
      rfl⟩
  have h := C10_introspection c10wit hr
  exact ⟨hr, h.1, h.2.1, h.2.2 "a", h.2.2 "zz"⟩

section Counting

variable {α : Type}

/-- Number of internal set calls performed by one public operation. -/
def setCalls : Op α → Nat
  | Op.opSet _ _ _ => 1
  | Op.opSetWithTTL _ _ _ _ => 1
  | Op.opSetGet _ _ _ => 1
  | Op.opSetGetWithTTL _ _ _ _ => 1
  | Op.opGet _ _ => 0
  | Op.opGetMultiple _ _ => 0
  | Op.opGetSet _ _ _ => 1
  | Op.opGetSetWithTTL _ _ _ _ => 1
  | Op.opGetDelete _ _ => 0
  | Op.opDelete _ => 0
  | Op.opDeleteAll => 0
  | Op.opDeleteExpired _ => 0

/-- Number of get-like calls of one public operation as the claim enumerates
them: Get, GetMultiple per key, and the read halves of the SetGet and GetSet
variants; the claim does not count the read half of GetDelete. -/
def getCallsClaimed : Op α → Nat
  | Op.opSet _ _ _ => 0
  | Op.opSetWithTTL _ _ _ _ => 0
  | Op.opSetGet _ _ _ => 1
  | Op.opSetGetWithTTL _ _ _ _ => 1
  | Op.opGet _ _ => 1
  | Op.opGetMultiple ks _ => ks.length
  | Op.opGetSet _ _ _ => 1
  | Op.opGetSetWithTTL _ _ _ _ => 1
  | Op.opGetDelete _ _ => 0
  | Op.opDelete _ => 0
  | Op.opDeleteAll => 0
  | Op.opDeleteExpired _ => 0

/-- Number of internal get calls performed by one public operation: as the
code runs them, GetDelete also performs a read. -/
def getCalls : Op α → Nat
  | Op.opSet _ _ _ => 0
  | Op.opSetWithTTL _ _ _ _ => 0
  | Op.opSetGet _ _ _ => 1
  | Op.opSetGetWithTTL _ _ _ _ => 1
  | Op.opGet _ _ => 1
  | Op.opGetMultiple ks _ => ks.length
  | Op.opGetSet _ _ _ => 1
  | Op.opGetSetWithTTL _ _ _ _ => 1
  | Op.opGetDelete _ _ => 1
  | Op.opDelete _ => 0
  | Op.opDeleteAll => 0
  | Op.opDeleteExpired _ => 0

/-- Number of evict-primitive invocations of one public operation in the
given state: Delete of a present key, GetDelete whose read returned a live
value, and one per key collected from the expirations index by
DeleteExpired (whether or not that key is still in the item map). -/
def evictCalls (s : Cache α) : Op α → Nat
  | Op.opDelete k => if (mapLookup s.items k).isSome then 1 else 0
  | Op.opGetDelete k now => if ((s.get k now).1).isSome then 1 else 0
  | Op.opDeleteExpired now => (collectExpired s.expirationsQueue now).length
  | _ => 0

/-- Total evict-primitive invocations along a trace. -/
def totalEvictCalls : Cache α → List (Op α) → Nat
  | _, [] => 0
  | s, op :: ops => evictCalls s op + totalEvictCalls (applyOp s op) ops

/-- Number of keys actually removed from the item map by one delete-path
operation (delete, getDelete, deleteExpired), measured as the drop in Len. -/
def removedByClaim (s : Cache α) (op : Op α) : Nat :=
  match op with
  | Op.opDelete _ => s.Len - (applyOp s op).Len
  | Op.opGetDelete _ _ => s.Len - (applyOp s op).Len
  | Op.opDeleteExpired _ => s.Len - (applyOp s op).Len
  | _ => 0

/-- Total keys removed via the delete paths along a trace. -/
def totalRemovedClaim : Cache α → List (Op α) → Nat
  | _, [] => 0
  | s, op :: ops => removedByClaim s op + totalRemovedClaim (applyOp s op) ops

end Counting

theorem applyOp_config {α : Type} (c : Cache α) (op : Op α) :
    (applyOp c op).config = c.config := by
  cases op with
  | opSet k v now => rw [applyOp, Cache.Set, set_config]
  | opSetWithTTL k v ttl now => rw [applyOp, Cache.SetWithTTL, set_config]
  | opSetGet k v now => rw [applyOp, Cache.SetGet, get_config, set_config]
  | opSetGetWithTTL k v ttl now =>
      rw [applyOp, Cache.SetGetWithTTL, get_config, set_config]
  | opGet k now => rw [applyOp, Cache.Get, get_config]
  | opGetMultiple ks now => rw [applyOp, getMultiple_config]
  | opGetSet k v now =>
      simp only [applyOp, Cache.GetSet]
      rw [set_config, get_config]
  | opGetSetWithTTL k v ttl now =>
      simp only [applyOp, Cache.GetSetWithTTL]
      rw [set_config, get_config]
  | opGetDelete k now =>
      simp only [applyOp, Cache.GetDelete]
      split
      · rw [evict_config, get_config]
      · rw [get_config]
  | opDelete k =>
      simp only [applyOp, Cache.Delete]
      split
      · rw [evict_config]
      · rfl
  | opDeleteAll => rfl
  | opDeleteExpired now =>
      rw [applyOp, Cache.DeleteExpired, foldl_evict_config]

theorem applyOp_metrics (s : Cache Nat) (op : Op Nat)
    (h : s.config.enableMetrics = true) :
    (applyOp s op).metrics.insertions = s.metrics.insertions + setCalls op ∧
    (applyOp s op).metrics.hits + (applyOp s op).metrics.misses =
      s.metrics.hits + s.metrics.misses + getCalls op ∧
    (applyOp s op).metrics.evictions =
      s.metrics.evictions + evictCalls s op := by
  cases op with
  | opSet k v now =>
      simp only [applyOp, Cache.Set]
      rw [set_metrics_enabled s k v s.config.ttl now h]
      simp [setCalls, getCalls, evictCalls]
  | opSetWithTTL k v ttl now =>
      simp only [applyOp, Cache.SetWithTTL]
      rw [set_metrics_enabled s k v ttl now h]
      simp [setCalls, getCalls, evictCalls]
  | opSetGet k v now =>
      have h1 : (s.set k v s.config.ttl now).config.enableMetrics = true := by
        rw [set_config]; exact h
      obtain ⟨g1, g2, g3⟩ :=
        get_metrics_enabled (s.set k v s.config.ttl now) k now h1
      simp only [applyOp, Cache.SetGet]
      rw [set_metrics_enabled s k v s.config.ttl now h] at g1 g2 g3
      simp only [g1, g2]
      refine ⟨by simp [setCalls], ?_, by simp [evictCalls]⟩
      rw [g3]
      simp [getCalls]
  | opSetGetWithTTL k v ttl now =>
      have h1 : (s.set k v ttl now).config.enableMetrics = true := by
        rw [set_config]; exact h
      obtain ⟨g1, g2, g3⟩ := get_metrics_enabled (s.set k v ttl now) k now h1
      simp only [applyOp, Cache.SetGetWithTTL]
      rw [set_metrics_enabled s k v ttl now h] at g1 g2 g3
      simp only [g1, g2]
      refine ⟨by simp [setCalls], ?_, by simp [evictCalls]⟩
      rw [g3]
      simp [getCalls]
  | opGet k now =>
      obtain ⟨g1, g2, g3⟩ := get_metrics_enabled s k now h
      simp only [applyOp, Cache.Get]
      exact ⟨by rw [g1]; simp [setCalls],
        by rw [g3]; simp [getCalls],
        by rw [g2]; simp [evictCalls]⟩
  | opGetMultiple ks now =>
      obtain ⟨g1, g2, g3⟩ := getMultiple_metrics_enabled s ks now h
      simp only [applyOp]
      exact ⟨by rw [g1]; simp [setCalls],
        by rw [g3]; simp [getCalls],
        by rw [g2]; simp [evictCalls]⟩
  | opGetSet k v now =>
      have h1 : ((s.get k now).2).config.enableMetrics = true := by
        rw [get_config]; exact h
      obtain ⟨g1, g2, g3⟩ := get_metrics_enabled s k now h
      simp only [applyOp, Cache.GetSet, get_config]
      rw [set_metrics_enabled ((s.get k now).2) k v s.config.ttl now h1]
      refine ⟨by rw [g1]; simp [setCalls], ?_, by rw [g2]; simp [evictCalls]⟩
      rw [g3]
      simp [getCalls]
  | opGetSetWithTTL k v ttl now =>
      have h1 : ((s.get k now).2).config.enableMetrics = true := by
        rw [get_config]; exact h
      obtain ⟨g1, g2, g3⟩ := get_metrics_enabled s k now h
      simp only [applyOp, Cache.GetSetWithTTL]
      rw [set_metrics_enabled ((s.get k now).2) k v ttl now h1]
      refine ⟨by rw [g1]; simp [setCalls], ?_, by rw [g2]; simp [evictCalls]⟩
      rw [g3]
      simp [getCalls]
  | opGetDelete k now =>
      have h1 : ((s.get k now).2).config.enableMetrics = true := by
        rw [get_config]; exact h
      obtain ⟨g1, g2, g3⟩ := get_metrics_enabled s k now h
      simp only [applyOp, Cache.GetDelete]
      split
      next hsome =>
        rw [evict_metrics_enabled ((s.get k now).2) k h1]
        refine ⟨by rw [g1]; simp [setCalls], ?_, ?_⟩
        · rw [g3]; simp [getCalls]
        · rw [g2]; simp [evictCalls, hsome]
      next hnone =>
        refine ⟨by rw [g1]; simp [setCalls], ?_, ?_⟩
        · rw [g3]; simp [getCalls]
        · rw [g2]
          simp only [evictCalls]
          rw [if_neg hnone]
          omega
  | opDelete k =>
      simp only [applyOp, Cache.Delete]
      split
      next hsome =>
        rw [evict_metrics_enabled s k h]
        refine ⟨by simp [setCalls], by simp [getCalls], ?_⟩
        simp [evictCalls, hsome]
      next hnone =>
        refine ⟨by simp [setCalls], by simp [getCalls], ?_⟩
        simp only [evictCalls]
        rw [if_neg hnone]
        omega
  | opDeleteAll =>
      exact ⟨by simp [applyOp, Cache.DeleteAll, setCalls],
        by simp [applyOp, Cache.DeleteAll, getCalls],
        by simp [applyOp, Cache.DeleteAll, evictCalls]⟩
  | opDeleteExpired now =>
      obtain ⟨f1, f2, f3, f4⟩ := foldl_evict_metrics_enabled
        (collectExpired s.expirationsQueue now) s h
      simp only [applyOp, Cache.DeleteExpired]
      exact ⟨by rw [f2]; simp [setCalls],
        by rw [f3, f4]; simp [getCalls],
        by rw [f1]; simp [evictCalls]⟩

/-- Modelled from the claim C3 text: insertions equals the number of set
calls, hits plus misses equals the number of get-like calls as the claim
enumerates them (without GetDelete), and evictions equals the number of keys
removed from the item map via delete, getDelete and deleteExpired. -/
def ClaimedMetricsInv (c0 : Cache Nat) (ops : List (Op Nat)) : Prop :=
  (run c0 ops).metrics.insertions = (ops.map setCalls).sum ∧
  (run c0 ops).metrics.hits + (run c0 ops).metrics.misses =
    (ops.map getCallsClaimed).sum ∧
  (run c0 ops).metrics.evictions = totalRemovedClaim c0 ops

def c3start : Cache Nat := Cache.new { ttl := 0, enableMetrics := true }

def c3ops : List (Op Nat) :=
  [Op.opSetWithTTL "a" (some 1) 1 0, Op.opDeleteAll, Op.opDeleteExpired 5,
   Op.opGetDelete "b" 5]

/-- Counterexample to C3 as stated: after setWithTTL(a, 1, ttl 1),
deleteAll, deleteExpired at time 5 and getDelete(b), the evictions counter
is 1 although no key was removed from the item map by the delete paths (the
sweep evicted the stale index key a, which deleteAll had already dropped
from the item map), and hits plus misses is 1 although the claim counts no
get-like call (it omits the read half of getDelete). -/
theorem C3_counterexample :
    ¬ ClaimedMetricsInv c3start c3ops ∧
    (run c3start c3ops).metrics.evictions = 1 ∧
    totalRemovedClaim c3start c3ops = 0 ∧
    (run c3start c3ops).metrics.hits + (run c3start c3ops).metrics.misses = 1 ∧
    (c3ops.map getCallsClaimed).sum = 0 := by
  refine ⟨?_, by decide, by decide, by decide, by decide⟩
  intro hcl
  exact absurd hcl.2.2 (by decide)

/-- C3 (corrected): with the real metrics sink selected, insertions counts
exactly the set calls; hits plus misses counts exactly the get calls the
code performs, which include the read half of GetDelete; and evictions
counts exactly the evict-primitive invocations: Delete of a present key,
GetDelete returning a live value, and one per key collected from the
expirations index by DeleteExpired - which can exceed the number of keys
actually removed when the index holds stale keys (for example after
DeleteAll). -/
theorem C3_amended_metrics (ops : List (Op Nat)) (s : Cache Nat)
    (h : s.config.enableMetrics = true) :
    (run s ops).metrics.insertions =
      s.metrics.insertions + (ops.map setCalls).sum ∧
    (run s ops).metrics.hits + (run s ops).metrics.misses =
      s.metrics.hits + s.metrics.misses + (ops.map getCalls).sum ∧
    (run s ops).metrics.evictions =
      s.metrics.evictions + totalEvictCalls s ops := by
  induction ops generalizing s with
  | nil => simp [run, totalEvictCalls]
  | cons op ops ih =>
      have hcfg : (applyOp s op).config.enableMetrics = true := by
        rw [applyOp_config]; exact h
      obtain ⟨a1, a2, a3⟩ := applyOp_metrics s op h
      obtain ⟨i1, i2, i3⟩ := ih (applyOp s op) hcfg
      have hrun : run s (op :: ops) = run (applyOp s op) ops := rfl
      rw [hrun]
      refine ⟨?_, ?_, ?_⟩
      · rw [i1, a1, List.map_cons, List.sum_cons]
        omega
      · rw [i2, a2, List.map_cons, List.sum_cons]
        omega
      · rw [i3, a3]
        have ht : totalEvictCalls s (op :: ops) =
            evictCalls s op + totalEvictCalls (applyOp s op) ops := rfl
        rw [ht]
        omega

def c3wops : List (Op Nat) :=
  [Op.opSet "a" (some 1) 0, Op.opGet "a" 0, Op.opGet "zz" 0, Op.opDelete "a",
   Op.opGetDelete "a" 0, Op.opDeleteExpired 9]

/-- Witness for C3 on a concrete metrics-enabled trace exercising set, hit,
miss, delete, a missing getDelete and a sweep. -/
theorem C3_witness :
    c3start.config.enableMetrics = true ∧
    (run c3start c3wops).metrics.insertions =
      c3start.metrics.insertions + (c3wops.map setCalls).sum ∧
    (run c3start c3wops).metrics.hits + (run c3start c3wops).metrics.misses =
      c3start.metrics.hits + c3start.metrics.misses +
        (c3wops.map getCalls).sum ∧
    (run c3start c3wops).metrics.evictions =
      c3start.metrics.evictions + totalEvictCalls c3start c3wops := by
  have h := C3_amended_metrics c3wops c3start (by decide)
  exact ⟨by decide, h.1, h.2.1, h.2.2⟩

end Incache
